import Mathlib

/-!
Shallow embedding of `src/utils/glue_generator_src/glue_generator.cpp`, the
OpenPLC glue generator.

Modeling conventions.
C strings are `List Char`; reading a character at index `i` of a string whose
length is `i` yields the NUL terminator, which `cAt` models by a default of
`Char.ofNat 0`; scanning that runs past the terminator, or a write past the
end of a fixed C buffer, is undefined behavior in the source and the parser
model returns `none` exactly in those situations.  `uint16_t` arithmetic is
`Nat` with an explicit reduction mod 2 ^ 16 where the source converts
(`toU16`).  The external md5 primitive (`md5.h`, outside this repository) is
an opaque deterministic streaming hash with init/append/finish; it is modeled
by the exact byte sequence fed to it, since that sequence fully determines the
finished digest.  Output emission to the `ostream` is modeled structurally:
each emitted artifact (assignment statement, boolean-group constant, glue-table
row, checksum byte pair) becomes a value of a small inductive or structure
type, in emission order.
-/

namespace GlueGenerator

/-- C-string character access: `s[i]` for an in-range index, the NUL
terminator at the end of the string.  Access beyond the terminator is
undefined in the source. -/
def cAt (s : List Char) (i : Nat) : Char := s.getD i (Char.ofNat 0)

/-- Decimal value of a digit string (no sign). -/
def digitsToNat (cs : List Char) : Nat :=
  cs.foldl (fun a c => a * 10 + (c.toNat - 48)) 0

/-- Model of C `atoi` as used by `findPositions`: skip leading whitespace,
optional sign, then the maximal leading run of digits; a string with no
leading digits has value 0. -/
def atoiVal (cs : List Char) : Int :=
  let cs := cs.dropWhile (fun c => (c == ' ') || (c == '\t') || (c == '\n') || (c == '\r'))
  match cs with
  | '-' :: rest => - (digitsToNat (rest.takeWhile Char.isDigit) : Int)
  | '+' :: rest => (digitsToNat (rest.takeWhile Char.isDigit) : Int)
  | _ => (digitsToNat (cs.takeWhile Char.isDigit) : Int)

/-- Conversion of a C `int` to `uint16_t` (reduction mod 2 ^ 16). -/
def toU16 (i : Int) : Nat := (i % 65536).toNat

/-- Mirror of `findPositions`: scan the name from index 4 up to `'_'` or the
end of the string for the major index; if a `'_'` separator was found, the
remainder of the name is the minor index, otherwise the minor index is 0. -/
def findPositions (name : List Char) : Nat × Nat :=
  let tail := name.drop 4
  let major := tail.takeWhile (fun c => c != '_')
  let pos1 := toU16 (atoiVal major)
  if major.length = tail.length then (pos1, 0)
  else (pos1, toU16 (atoiVal (tail.drop (major.length + 1))))

/-- Field extraction of `parseIecVars` on one line: copy the line into a
1024-byte buffer (`strncpy` truncates and NUL-pads), scan to the first `'('`,
then copy the two following comma-terminated fields (type, then name) into
100-byte buffers.  The scans have no bounds checks: a missing `'('`, a missing
terminating comma, or a field of 100 or more characters makes the source read
or write out of bounds (undefined behavior), modeled as `none`. -/
def parseFields (line : List Char) : Option (List Char × List Char) :=
  let buf := line.take 1024
  if buf.contains '(' then
    let afterParen := (buf.dropWhile (fun c => c != '(')).drop 1
    let ty := afterParen.takeWhile (fun c => c != ',')
    let rest1 := afterParen.dropWhile (fun c => c != ',')
    if rest1 = [] ∨ 100 ≤ ty.length then none
    else
      let nm := (rest1.drop 1).takeWhile (fun c => c != ',')
      let rest2 := (rest1.drop 1).dropWhile (fun c => c != ',')
      if rest2 = [] ∨ 100 ≤ nm.length then none
      else some (ty, nm)
  else none

/-- Mirror of `struct IecVar`. -/
structure IecVar where
  name : String
  type : String
  pos1 : Nat
  pos2 : Nat
deriving DecidableEq, Repr

/-- Helper for `linesOf`. -/
def splitLinesAux : List Char → List Char → List (List Char)
  | [], cur => if cur.isEmpty then [] else [cur]
  | c :: cs, cur =>
    if c = '\n' then cur :: splitLinesAux cs [] else splitLinesAux cs (cur ++ [c])

/-- The sequence of lines `std::getline` delivers from an input stream:
newline terminators are consumed and not part of the delivered line; a final
segment without a terminator is still delivered; an exhausted stream delivers
nothing. -/
def linesOf (input : List Char) : List (List Char) := splitLinesAux input []

/-- The parse loop of `generateBody` over the lines of the input: for each
line, first the raw line bytes (as delivered by `getline`, terminator already
stripped) are appended to the running checksum state, then the type and name
fields are extracted and the positions decoded.  The second component of the
result is the full byte sequence fed to the checksum.  A line on which the
field scan is undefined (see `parseFields`) makes the run undefined, modeled
as `none`. -/
def parseLoop : List (List Char) → List Char → Option (List IecVar × List Char)
  | [], acc => some ([], acc)
  | l :: ls, acc =>
    match parseFields l with
    | none => none
    | some (ty, nm) =>
      match parseLoop ls (acc ++ l) with
      | none => none
      | some (vs, accF) =>
        some ({ name := String.mk nm, type := String.mk ty,
                pos1 := (findPositions nm).1, pos2 := (findPositions nm).2 } :: vs, accF)

/-- The diagnostic text `glueVar` prints for a minor index of 8 or more. -/
def invalidAddrMsg (name : String) : String :=
  "***Invalid addressing on located variable" ++ name ++ "***"

/-- Diagnostics emitted by one `glueVar` call: a single warning exactly when
the minor index is at least 8. -/
def glueVarWarnings (name : String) (pos2 : Nat) : List String :=
  if 8 ≤ pos2 then [invalidAddrMsg name] else []

/-- One direct-assignment statement emitted by `glueVar`, identified by the
target buffer and subscripts. -/
inductive GlueStmt where
  | boolInput (p1 p2 : Nat) (name : String)
  | byteInput (p1 : Nat) (name : String)
  | intInput (p1 : Nat) (name : String)
  | boolOutput (p1 p2 : Nat) (name : String)
  | byteOutput (p1 : Nat) (name : String)
  | intOutput (p1 : Nat) (name : String)
  | intMemory (p1 : Nat) (name : String)
  | dintMemory (p1 : Nat) (name : String)
  | lintMemory (p1 : Nat) (name : String)
  | specialFunctions (p1 : Nat) (name : String)
deriving DecidableEq, Repr

/-- The assignment statements one `glueVar` call emits: dispatch on the
direction character `name[2]` and the size character `name[3]`; a long-word
memory location with major index above 1023 goes to `special_functions` at the
offset-adjusted index; a direction/size combination with no `case` emits
nothing. -/
def glueVarStmts (name : String) (pos1 pos2 : Nat) : List GlueStmt :=
  let nm := name.toList
  if cAt nm 2 = 'I' then
    if cAt nm 3 = 'X' then [.boolInput pos1 pos2 name]
    else if cAt nm 3 = 'B' then [.byteInput pos1 name]
    else if cAt nm 3 = 'W' then [.intInput pos1 name]
    else []
  else if cAt nm 2 = 'Q' then
    if cAt nm 3 = 'X' then [.boolOutput pos1 pos2 name]
    else if cAt nm 3 = 'B' then [.byteOutput pos1 name]
    else if cAt nm 3 = 'W' then [.intOutput pos1 name]
    else []
  else if cAt nm 2 = 'M' then
    if cAt nm 3 = 'W' then [.intMemory pos1 name]
    else if cAt nm 3 = 'D' then [.dintMemory pos1 name]
    else if cAt nm 3 = 'L' then
      if 1023 < pos1 then [.specialFunctions (pos1 - 1024) name]
      else [.lintMemory pos1 name]
    else []
  else []

/-- The direct-assignment pass of `generateBody`: one `glueVar` call per
declaration, in list order, collecting diagnostics and statements. -/
def directPass : List IecVar → List String × List GlueStmt
  | [] => ([], [])
  | v :: rest =>
    let r := directPass rest
    (glueVarWarnings v.name v.pos2 ++ r.1,
     glueVarStmts v.name v.pos1 v.pos2 ++ r.2)

/-- Mirror of `fromDirectionFlag`. -/
def fromDirectionFlag (c : Char) : String :=
  if c = 'I' then "IN" else if c = 'Q' then "OUT" else "MEM"

/-- Mirror of `fromSizeFlag` (`'G'` is the synthetic boolean-group flag). -/
def fromSizeFlag (c : Char) : String :=
  if c = 'G' ∨ c = 'X' then "BIT"
  else if c = 'B' then "BYTE"
  else if c = 'W' then "WORD"
  else if c = 'D' then "DOUBLEWORD"
  else "LONGWORD"

/-- Model of `std::map<uint16_t, std::array<std::string, 8>>`: an association
list sorted by key in strictly ascending order (the iteration order of
`std::map`).  An unassigned slot is the empty string, exactly as a
default-constructed `std::array<std::string, 8>`. -/
abbrev GroupMap := List (Nat × List String)

/-- Mirror of `std::map::find` (presence test and entry access). -/
def mapFind : GroupMap → Nat → Option (List String)
  | [], _ => none
  | (k', v) :: rest, k => if k = k' then some v else mapFind rest k

/-- Order-preserving insertion, the effect of `(*container)[pos1] =
std::array<std::string, 8>()` on a `std::map`. -/
def mapInsert (k : Nat) (v : List String) : GroupMap → GroupMap
  | [] => [(k, v)]
  | (k', v') :: rest =>
    if k < k' then (k, v) :: (k', v') :: rest
    else if k = k' then (k, v) :: rest
    else (k', v') :: mapInsert k v rest

/-- The slot write `(*container)[pos1][pos2] = name` on an entry already
present.  A write with slot index at least 8 is out of bounds (undefined
behavior) in the source; `List.set` past the end is a no-op, a modeling
placeholder that is NOT a faithful rendering of that undefined write — the
write trace `boolGroupsSlotWrites` below records every slot write the loop
performs so that the out-of-bounds ones remain observable. -/
def mapSetSlot (k i : Nat) (name : String) : GroupMap → GroupMap
  | [] => []
  | (k', v') :: rest =>
    if k = k' then (k', v'.set i name) :: rest
    else (k', v') :: mapSetSlot k i name rest

/-- The three containers `generateBoolGroups` dispatches on (the `switch` on
the direction character, whose `default` is memory). -/
inductive Bucket where
  | IN | OUT | MEM
deriving DecidableEq, Repr

/-- Container selection of `generateBoolGroups`: `'I'` to inputs, `'Q'` to
outputs, anything else to memory. -/
def bucketOf (c : Char) : Bucket :=
  if c = 'I' then .IN else if c = 'Q' then .OUT else .MEM

/-- The three group maps of `generateBoolGroups`. -/
structure AggState where
  inputs : GroupMap
  outputs : GroupMap
  memory : GroupMap
deriving DecidableEq, Repr

/-- Select the container for a bucket. -/
def AggState.bucket (st : AggState) : Bucket → GroupMap
  | .IN => st.inputs
  | .OUT => st.outputs
  | .MEM => st.memory

/-- Replace the container for a bucket. -/
def AggState.setB (st : AggState) : Bucket → GroupMap → AggState
  | .IN, m => { st with inputs := m }
  | .OUT, m => { st with outputs := m }
  | .MEM, m => { st with memory := m }

/-- The empty initial maps. -/
def initState : AggState := ⟨[], [], []⟩

/-- The synthetic name `generateBoolGroups` writes into a kept group
representative: `"__"`, the direction character, `'G'`, the decimal major
index.  All located-variable identifiers in this generator carry the uniform
two-underscore prefix, so the group identifier proper is
direction-`'G'`-major-index. -/
def groupName (dflag : Char) (pos1 : Nat) : String :=
  "__" ++ String.mk [dflag] ++ "G" ++ toString pos1

/-- Mirror of the list-mutating `generateBoolGroups` loop.  Iterate the
declaration list once; a declaration whose size character is not `'X'` is
skipped; otherwise its saved name is recorded in the slot `pos2` of the group
keyed by `pos1` in the container of its direction, and the declaration is
either kept (key not seen before: the group is created, the declaration is
renamed to the synthetic group name and its minor index cleared) or erased
from the list (key already present).  Returns the surviving list and the final
maps. -/
def generateBoolGroupsList : List IecVar → AggState → List IecVar × AggState
  | [], st => ([], st)
  | v :: rest, st =>
    if cAt v.name.toList 3 = 'X' then
      let dflag := cAt v.name.toList 2
      let b := bucketOf dflag
      if mapFind (st.bucket b) v.pos1 = none then
        let st' := st.setB b
          (mapSetSlot v.pos1 v.pos2 v.name
            (mapInsert v.pos1 (List.replicate 8 "") (st.bucket b)))
        let r := generateBoolGroupsList rest st'
        ({ v with name := groupName dflag v.pos1, pos2 := 0 } :: r.1, r.2)
      else
        generateBoolGroupsList rest
          (st.setB b (mapSetSlot v.pos1 v.pos2 v.name (st.bucket b)))
    else
      let r := generateBoolGroupsList rest st
      (v :: r.1, r.2)

/-- The trace of slot writes the `generateBoolGroups` loop performs: every
bit-addressed declaration, whether kept or erased, ends its iteration with
`(*container)[pos1][pos2] = name` (the name and minor index saved before any
rename), so the loop performs one write per bit-addressed declaration at its
saved minor index.  The group array is `std::array<std::string, 8>`: a
recorded write whose index is at least 8 is past the end of the array —
undefined behavior in the source. -/
def boolGroupsSlotWrites : List IecVar → List (Nat × String)
  | [] => []
  | v :: rest =>
    if cAt v.name.toList 3 = 'X' then
      (v.pos2, v.name) :: boolGroupsSlotWrites rest
    else boolGroupsSlotWrites rest

/-- One emitted `GlueBoolGroup` constant: direction character, major index,
and the eight slots (an empty string is emitted as `nullptr`). -/
structure BoolGroupConst where
  direction : Char
  index : Nat
  slots : List String
deriving DecidableEq, Repr

/-- Mirror of the map-emitting `generateBoolGroups` overload: one constant per
map entry, in map (ascending key) order; an empty map emits nothing. -/
def emitGroups (d : Char) (m : GroupMap) : List BoolGroupConst :=
  m.map (fun p => ⟨d, p.1, p.2⟩)

/-- The fixed emission order of the group constants at the end of
`generateBoolGroups`: inputs, then outputs, then memory. -/
def allGroupConsts (st : AggState) : List BoolGroupConst :=
  emitGroups 'I' st.inputs ++ emitGroups 'Q' st.outputs ++ emitGroups 'M' st.memory

/-- One row of the emitted `oplc_glue_vars` table. -/
structure GlueRow where
  dir : String
  size : String
  msi : Nat
  lsi : Nat
  vtype : String
  target : String
deriving DecidableEq, Repr

/-- The row `generateIntegratedGlue` emits for one surviving declaration. -/
def rowOf (v : IecVar) : GlueRow :=
  { dir := fromDirectionFlag (cAt v.name.toList 2)
    size := fromSizeFlag (cAt v.name.toList 3)
    msi := v.pos1
    lsi := v.pos2
    vtype := v.type
    target := v.name }

/-- Mirror of `generateIntegratedGlue`: the emitted `OPLCGLUE_GLUE_SIZE`
constant (the size of the surviving list) followed by one row per surviving
declaration, in list order. -/
def generateIntegratedGlue (vars : List IecVar) : Nat × List GlueRow :=
  (vars.length, vars.map rowOf)

/-- The grouping key of a bit-addressed declaration: its direction bucket and
its major index. -/
def specKey (v : IecVar) : Bucket × Nat :=
  (bucketOf (cAt v.name.toList 2), v.pos1)

/-- Modelled from the spec's words for the Boolean Group Aggregator contract
(claim C1): walk the ordered declaration list keeping a set of already-seen
`(direction, majorIndex)` keys; a non-bit-addressed declaration is kept
untouched; a bit-addressed declaration whose key was already seen is removed;
the first declaration of a key is kept in place, renamed to the synthetic
group identifier and with its minor index cleared to 0. -/
def specAggregate : List IecVar → List (Bucket × Nat) → List IecVar
  | [], _ => []
  | v :: rest, seen =>
    if cAt v.name.toList 3 = 'X' then
      if specKey v ∈ seen then specAggregate rest seen
      else
        { v with name := groupName (cAt v.name.toList 2) v.pos1, pos2 := 0 }
          :: specAggregate rest (specKey v :: seen)
    else v :: specAggregate rest seen

/-- Count of the declarations the aggregator leaves ungrouped (size character
not `'X'`). -/
def nonBitCount (vars : List IecVar) : Nat :=
  (vars.filter (fun v => decide (cAt v.name.toList 3 ≠ 'X'))).length

/-- Total number of group-map entries across the three directions. -/
def mapsTotal (st : AggState) : Nat :=
  st.inputs.length + st.outputs.length + st.memory.length

/-- The content of slot `j` of the group keyed `(b, k)`: `none` when no such
group exists, otherwise the slot string (empty when unassigned). -/
def groupSlot (st : AggState) (b : Bucket) (k j : Nat) : Option String :=
  (mapFind (st.bucket b) k).map (fun slots => slots.getD j "")

/-- The bit-addressed declarations of a list that belong to group `(b, k)`. -/
def bitMatches (vars : List IecVar) (b : Bucket) (k : Nat) : List IecVar :=
  vars.filter (fun v =>
    decide (cAt v.name.toList 3 = 'X' ∧ bucketOf (cAt v.name.toList 2) = b ∧ v.pos1 = k))

/-- The rank of a direction character in the fixed emission order of the
group constants. -/
def dirRank (c : Char) : Nat :=
  if c = 'I' then 0 else if c = 'Q' then 1 else 2

/-- Mirror of the `hex_chars` table of `generateChecksum`. -/
def hexChars : List Char :=
  ['0', '1', '2', '3', '4', '5', '6', '7', '8', '9', 'A', 'B', 'C', 'D', 'E', 'F']

/-- Mirror of the `generateChecksum` emission loop: `for (int i = 0; i <= 16;
++i)` emits, for each `i` from 0 through 16 inclusive, the hexadecimal pair of
`digest[i]`.  The digest array access is modeled by `List.get?`, so an access
past the end of the digest (an out-of-bounds read in the source) appears as
`none`. -/
def checksumPairs (digest : List Nat) : List (Option (Char × Char)) :=
  (List.range 17).map (fun i =>
    (digest.get? i).map (fun b =>
      (hexChars.getD ((b.land 240) >>> 4) '0', hexChars.getD (b.land 15) '0')))

/-- Sortedness of a group map: keys strictly ascend, as they do in a
`std::map` iterated front to back. -/
def mapSorted (m : GroupMap) : Prop :=
  List.Chain' (fun a b : Nat × List String => a.1 < b.1) m

/-- All three group maps sorted. -/
def sortedSt (st : AggState) : Prop :=
  mapSorted st.inputs ∧ mapSorted st.outputs ∧ mapSorted st.memory

/-- Emission order on group constants: direction in the fixed order
`'I'`, `'Q'`, `'M'`, then ascending major index inside a direction. -/
def emitLt (a b : BoolGroupConst) : Prop :=
  dirRank a.direction < dirRank b.direction ∨
    (a.direction = b.direction ∧ a.index < b.index)

/- ------------------------------------------------------------------ -/
/- Theorems.                                                           -/
/- ------------------------------------------------------------------ -/

theorem bucket_setB_self (st : AggState) (b : Bucket) (m : GroupMap) :
    (st.setB b m).bucket b = m := by
  cases b <;> rfl

theorem bucket_setB_ne (st : AggState) (b b' : Bucket) (m : GroupMap)
    (h : b' ≠ b) : (st.setB b m).bucket b' = st.bucket b' := by
  cases b <;> cases b' <;> first | rfl | exact absurd rfl h

theorem mapFind_mapInsert_self (k : Nat) (v : List String) (m : GroupMap) :
    mapFind (mapInsert k v m) k = some v := by
  induction m with
  | nil => simp [mapInsert, mapFind]
  | cons a rest ih =>
    by_cases h1 : k < a.1
    · simp [mapInsert, h1, mapFind]
    · by_cases h2 : k = a.1
      · simp [mapInsert, h1, h2, mapFind]
      · simp [mapInsert, h1, h2, mapFind, ih]

theorem mapFind_mapInsert_ne (k : Nat) (v : List String) (m : GroupMap)
    (k' : Nat) (h : k' ≠ k) :
    mapFind (mapInsert k v m) k' = mapFind m k' := by
  induction m with
  | nil => simp [mapInsert, mapFind, h]
  | cons a rest ih =>
    by_cases h1 : k < a.1
    · simp [mapInsert, h1, mapFind, h]
    · by_cases h2 : k = a.1
      · subst h2; simp [mapInsert, h1, mapFind, h]
      · simp only [mapInsert, if_neg h1, if_neg h2, mapFind]
        by_cases h3 : k' = a.1 <;> simp [h3, ih]

theorem mapFind_mapSetSlot_self (k i : Nat) (n : String) (m : GroupMap) :
    mapFind (mapSetSlot k i n m) k = (mapFind m k).map (fun s => s.set i n) := by
  induction m with
  | nil => simp [mapSetSlot, mapFind]
  | cons a rest ih =>
    by_cases h : k = a.1
    · simp [mapSetSlot, h, mapFind]
    · simp [mapSetSlot, h, mapFind, ih]

theorem mapFind_mapSetSlot_ne (k i : Nat) (n : String) (m : GroupMap)
    (k' : Nat) (h : k' ≠ k) :
    mapFind (mapSetSlot k i n m) k' = mapFind m k' := by
  induction m with
  | nil => simp [mapSetSlot, mapFind]
  | cons a rest ih =>
    by_cases h1 : k = a.1
    · subst h1; simp [mapSetSlot, mapFind, h, ih]
    · simp only [mapSetSlot, if_neg h1, mapFind]
      by_cases h2 : k' = a.1 <;> simp [h2, ih]

theorem mapSetSlot_length (k i : Nat) (n : String) (m : GroupMap) :
    (mapSetSlot k i n m).length = m.length := by
  induction m with
  | nil => rfl
  | cons a rest ih =>
    by_cases h : k = a.1 <;> simp [mapSetSlot, h, ih]

theorem mapInsert_length (k : Nat) (v : List String) (m : GroupMap)
    (h : mapFind m k = none) :
    (mapInsert k v m).length = m.length + 1 := by
  induction m with
  | nil => rfl
  | cons a rest ih =>
    by_cases h1 : k < a.1
    · simp [mapInsert, h1]
    · by_cases h2 : k = a.1
      · simp [mapFind, h2] at h
      · simp only [mapFind, if_neg h2] at h
        simp [mapInsert, h1, h2, ih h]

theorem mapSetSlot_keys (k i : Nat) (n : String) (m : GroupMap) :
    (mapSetSlot k i n m).map Prod.fst = m.map Prod.fst := by
  induction m with
  | nil => rfl
  | cons a rest ih =>
    by_cases h : k = a.1 <;> simp [mapSetSlot, h, ih]

theorem parseLoop_acc (ls : List (List Char)) :
    ∀ acc vs accF, parseLoop ls acc = some (vs, accF) →
      accF = ls.foldl (fun a l => a ++ l) acc := by
  induction ls with
  | nil =>
    intro acc vs accF h
    simp [parseLoop] at h
    simp [h.2]
  | cons l ls ih =>
    intro acc vs accF h
    simp only [parseLoop] at h
    cases hp : parseFields l with
    | none => rw [hp] at h; exact absurd h (by simp)
    | some r =>
      rw [hp] at h
      cases hrec : parseLoop ls (acc ++ l) with
      | none => rw [hrec] at h; exact absurd h (by simp)
      | some r2 =>
        rw [hrec] at h
        simp at h
        have : accF = r2.2 := by
          rcases h with ⟨-, h2⟩; exact h2.symm
        subst this
        simpa using ih (acc ++ l) r2.1 r2.2 (by simpa using hrec)

/-- Claim C3 (amended): the byte sequence fed to the running checksum over a
whole run is exactly the concatenation, in read order, of the input lines with
their newline terminators stripped (as `getline` delivers them); it is
computed before and independently of any later name rewriting by the
grouping.  The finalized digest is a function of exactly this sequence. -/
theorem checksum_stream_is_stripped_lines (input : List Char)
    (vars : List IecVar) (acc : List Char)
    (h : parseLoop (linesOf input) [] = some (vars, acc)) :
    acc = (linesOf input).foldl (fun a l => a ++ l) [] :=
  parseLoop_acc (linesOf input) [] vars acc h

/-- Witness for `checksum_stream_is_stripped_lines` at a concrete two-line
input in the located-variable format. -/
theorem checksum_stream_is_stripped_lines_witness :
    ("(BOOL,__IX0_0,I,X,0,0)(BOOL,__IX0_1,I,X,0,1)".toList : List Char)
      = (linesOf "(BOOL,__IX0_0,I,X,0,0)\n(BOOL,__IX0_1,I,X,0,1)\n".toList).foldl
          (fun a l => a ++ l) [] :=
  checksum_stream_is_stripped_lines
    ("(BOOL,__IX0_0,I,X,0,0)\n(BOOL,__IX0_1,I,X,0,1)\n".toList)
    [⟨"__IX0_0", "BOOL", 0, 0⟩, ⟨"__IX0_1", "BOOL", 0, 1⟩]
    ("(BOOL,__IX0_0,I,X,0,0)(BOOL,__IX0_1,I,X,0,1)".toList)
    (by decide)

/-- Counterexample to claim C3 as stated: on a concrete two-line input the
run succeeds and the byte sequence fed to the checksum is the concatenation of
the lines with the newline terminators stripped, which differs from the
concatenation of the raw input lines (terminators included); so the finalized
digest is computed over different bytes than the claim names. -/
theorem checksum_raw_lines_counterexample :
    (parseLoop (linesOf "(BOOL,__IX0_0,I,X,0,0)\n(BOOL,__IX0_1,I,X,0,1)\n".toList) []).map
        Prod.snd
      = some ("(BOOL,__IX0_0,I,X,0,0)(BOOL,__IX0_1,I,X,0,1)".toList) ∧
    ("(BOOL,__IX0_0,I,X,0,0)(BOOL,__IX0_1,I,X,0,1)".toList : List Char)
      ≠ ("(BOOL,__IX0_0,I,X,0,0)\n" ++ "(BOOL,__IX0_1,I,X,0,1)\n").toList := by
  constructor
  · decide
  · decide

/-- Claim C4: refuted by the code.  The finalizer's loop runs `i` from 0
through 16 inclusive, so for a 16-byte digest it emits 17 hexadecimal byte
pairs, and the 17th reads `digest[16]`, one element past the end of the digest
array (modeled as `none`). -/
theorem checksum_pairs_off_by_one :
    (checksumPairs (List.replicate 16 0)).length = 17 ∧
    (checksumPairs (List.replicate 16 0)).getLast? = some none := by
  constructor
  · decide
  · decide

/-- Claim C5 (amended): a long-word memory declaration is routed to the
special-function buffer at index `majorIndex - 1024` exactly when its major
index exceeds 1023 (the source condition is `pos1 > 1023`), and to the
ordinary long-word memory buffer at index `majorIndex` otherwise. -/
theorem longword_memory_routing (name : String) (pos1 pos2 : Nat)
    (h2 : cAt name.toList 2 = 'M') (h3 : cAt name.toList 3 = 'L') :
    glueVarStmts name pos1 pos2 =
      if 1023 < pos1 then [GlueStmt.specialFunctions (pos1 - 1024) name]
      else [GlueStmt.lintMemory pos1 name] := by
  have h2' : cAt name.data 2 = 'M' := h2
  have h3' : cAt name.data 3 = 'L' := h3
  have hI : cAt name.data 2 ≠ 'I' := by rw [h2']; decide
  have hQ : cAt name.data 2 ≠ 'Q' := by rw [h2']; decide
  simp [glueVarStmts, String.toList, hI, hQ, h2', h3']

/-- Witness for `longword_memory_routing`: `%ML1025` (name `__ML1025`,
decoded major index 1025) is routed to the special-function buffer at offset
1, as the claim's scenario requires. -/
theorem longword_memory_routing_witness :
    findPositions "__ML1025".toList = (1025, 0) ∧
    glueVarStmts "__ML1025" 1025 0 = [GlueStmt.specialFunctions 1 "__ML1025"] := by
  refine ⟨by decide, ?_⟩
  have h := longword_memory_routing "__ML1025" 1025 0 (by decide) (by decide)
  rw [h]
  decide

/-- Counterexample to claim C5 as stated: at the boundary `%ML1024` the major
index does not exceed 1024, yet the code routes the declaration to the
special-function buffer at offset 0 rather than to the ordinary long-word
memory buffer. -/
theorem longword_memory_boundary_counterexample :
    findPositions "__ML1024".toList = (1024, 0) ∧
    glueVarStmts "__ML1024" 1024 0 = [GlueStmt.specialFunctions 0 "__ML1024"] ∧
    ¬ (1024 > 1024) := by
  refine ⟨by decide, by decide, by decide⟩

/-- Claim C7 (amended): a successfully parsed declaration's type and name are
the comma-delimited fields of the line, so they are non-empty whenever the
character right after `'('` (for the type) and the character right after the
first comma (for the name) are not themselves field terminators.  A line with
an empty field parses successfully with the corresponding attribute empty (in
the source the output buffer is simply left with its previous bytes). -/
theorem parsed_fields_nonempty (line ty nm : List Char)
    (h : parseFields line = some (ty, nm))
    (hty : (((line.take 1024).dropWhile (fun c => c != '(')).drop 1).head?
      ≠ some ',')
    (hnm : (((((line.take 1024).dropWhile (fun c => c != '(')).drop 1).dropWhile
        (fun c => c != ',')).drop 1).head? ≠ some ',') :
    ty ≠ [] ∧ nm ≠ [] := by
  simp only [parseFields] at h
  by_cases hc : (line.take 1024).contains '('
  · rw [if_pos hc] at h
    set afterParen := ((line.take 1024).dropWhile (fun c => c != '(')).drop 1 with hAP
    by_cases h1 : afterParen.dropWhile (fun c => c != ',') = [] ∨
        100 ≤ (afterParen.takeWhile (fun c => c != ',')).length
    · rw [if_pos h1] at h; exact absurd h (by simp)
    · rw [if_neg h1] at h
      by_cases h2 : ((afterParen.dropWhile (fun c => c != ',')).drop 1).dropWhile
            (fun c => c != ',') = [] ∨
          100 ≤ (((afterParen.dropWhile (fun c => c != ',')).drop 1).takeWhile
            (fun c => c != ',')).length
      · rw [if_pos h2] at h; exact absurd h (by simp)
      · rw [if_neg h2] at h
        simp only [Option.some.injEq, Prod.mk.injEq] at h
        obtain ⟨hty', hnm'⟩ := h
        constructor
        · rw [← hty']
          cases hAPc : afterParen with
          | nil =>
            exfalso; apply h1; left; rw [hAPc]; rfl
          | cons c cs =>
            rw [hAPc] at hty
            have hcne : (c != ',') = true := by
              simp only [List.head?, ne_eq, Option.some.injEq] at hty
              simpa using hty
            simp [List.takeWhile, hcne]
        · rw [← hnm']
          cases hdc : (afterParen.dropWhile (fun c => c != ',')).drop 1 with
          | nil =>
            exfalso; apply h2; left; rw [hdc]; rfl
          | cons c cs =>
            rw [hdc] at hnm
            have hcne : (c != ',') = true := by
              simp only [List.head?, ne_eq, Option.some.injEq] at hnm
              simpa using hnm
            simp [List.takeWhile, hcne]
  · rw [if_neg hc] at h; exact absurd h (by simp)

/-- Witness for `parsed_fields_nonempty` at the line
`(BOOL,__IX0_0,I,X,0,0)`. -/
theorem parsed_fields_nonempty_witness :
    ("BOOL".toList : List Char) ≠ [] ∧ ("__IX0_0".toList : List Char) ≠ [] :=
  parsed_fields_nonempty "(BOOL,__IX0_0,I,X,0,0)".toList
    "BOOL".toList "__IX0_0".toList (by decide) (by decide) (by decide)

/-- Counterexample to claim C7 as stated: the line `(,__IX0_0,I)` is parsed
successfully (the source returns 1 and reads no memory out of bounds), yet
the extracted type field is empty — the parser wrote nothing into the type
buffer. -/
theorem parsed_empty_type_counterexample :
    parseFields "(,__IX0_0,I)".toList = some (([] : List Char), "__IX0_0".toList) := by
  decide

theorem directPass_warnings (vars : List IecVar) :
    (directPass vars).1 =
      (vars.filter (fun v => decide (8 ≤ v.pos2))).map (fun v => invalidAddrMsg v.name) := by
  induction vars with
  | nil => rfl
  | cons v rest ih =>
    by_cases h : 8 ≤ v.pos2
    · simp [directPass, glueVarWarnings, h, List.filter, ih]
    · simp [directPass, glueVarWarnings, h, List.filter, ih]

theorem directPass_stmts (vars : List IecVar) :
    (directPass vars).2 =
      (vars.map (fun v => glueVarStmts v.name v.pos1 v.pos2)).flatten := by
  induction vars with
  | nil => rfl
  | cons v rest ih => simp [directPass, ih]

theorem mapsTotal_setB_setSlot (st : AggState) (b : Bucket) (k i : Nat) (n : String) :
    mapsTotal (st.setB b (mapSetSlot k i n (st.bucket b))) = mapsTotal st := by
  cases b <;>
    simp [mapsTotal, AggState.setB, AggState.bucket, mapSetSlot_length]

theorem mapsTotal_setB_insert (st : AggState) (b : Bucket) (k i : Nat) (n : String)
    (h : mapFind (st.bucket b) k = none) :
    mapsTotal (st.setB b
        (mapSetSlot k i n (mapInsert k (List.replicate 8 "") (st.bucket b))))
      = mapsTotal st + 1 := by
  cases b <;>
    · simp only [AggState.bucket] at h
      simp only [AggState.setB, AggState.bucket, mapsTotal, mapSetSlot_length,
        mapInsert_length _ _ _ h]
      omega

theorem generateBoolGroupsList_length (vars : List IecVar) :
    ∀ st, (generateBoolGroupsList vars st).1.length + mapsTotal st
      = nonBitCount vars + mapsTotal (generateBoolGroupsList vars st).2 := by
  induction vars with
  | nil => intro st; simp [generateBoolGroupsList, nonBitCount]
  | cons v rest ih =>
    intro st
    by_cases hX : cAt v.name.toList 3 = 'X'
    · by_cases hf : mapFind (st.bucket (bucketOf (cAt v.name.toList 2))) v.pos1 = none
      · simp only [generateBoolGroupsList, if_pos hX, if_pos hf]
        have hX' : cAt v.name.data 3 = 'X' := hX
        have hc : nonBitCount (v :: rest) = nonBitCount rest := by
          simp [nonBitCount, List.filter, hX']
        rw [hc]
        have := ih (st.setB (bucketOf (cAt v.name.toList 2))
          (mapSetSlot v.pos1 v.pos2 v.name
            (mapInsert v.pos1 (List.replicate 8 "")
              (st.bucket (bucketOf (cAt v.name.toList 2))))))
        rw [mapsTotal_setB_insert _ _ _ _ _ hf] at this
        simp only [List.length_cons]
        omega
      · simp only [generateBoolGroupsList, if_pos hX, if_neg hf]
        have hX' : cAt v.name.data 3 = 'X' := hX
        have hc : nonBitCount (v :: rest) = nonBitCount rest := by
          simp [nonBitCount, List.filter, hX']
        rw [hc]
        have := ih (st.setB (bucketOf (cAt v.name.toList 2))
          (mapSetSlot v.pos1 v.pos2 v.name
            (st.bucket (bucketOf (cAt v.name.toList 2)))))
        rw [mapsTotal_setB_setSlot] at this
        omega
    · simp only [generateBoolGroupsList, if_neg hX]
      have hX' : ¬ cAt v.name.data 3 = 'X' := hX
      have hc : nonBitCount (v :: rest) = nonBitCount rest + 1 := by
        simp [nonBitCount, List.filter, hX']
      rw [hc]
      have := ih st
      simp only [List.length_cons]
      omega

theorem allGroupConsts_length (st : AggState) :
    (allGroupConsts st).length = mapsTotal st := by
  simp only [allGroupConsts, emitGroups, List.length_append, List.length_map, mapsTotal]

/-- Claim C2: the number of rows emitted in the unified table equals the
emitted `OPLCGLUE_GLUE_SIZE` constant, and that count equals the number of
ungrouped (non-bit-addressed) declarations plus the number of emitted boolean
group constants, one per non-empty group. -/
theorem glue_table_size (vars : List IecVar) :
    (generateIntegratedGlue (generateBoolGroupsList vars initState).1).2.length
      = (generateIntegratedGlue (generateBoolGroupsList vars initState).1).1 ∧
    (generateIntegratedGlue (generateBoolGroupsList vars initState).1).1
      = nonBitCount vars
        + (allGroupConsts (generateBoolGroupsList vars initState).2).length := by
  constructor
  · simp [generateIntegratedGlue]
  · have h := generateBoolGroupsList_length vars initState
    have h0 : mapsTotal initState = 0 := rfl
    rw [h0] at h
    rw [allGroupConsts_length]
    simp only [generateIntegratedGlue]
    omega

/-- Claim C6: refuted by the code for bit-addressed declarations.  At the
declaration `__IX0_12` (minor index 12) the direct-assignment pass does emit
the diagnostic, but the aggregator loop then performs its slot write for this
declaration at index 12, past the end of the group's 8-slot `std::array` —
an out-of-bounds write, undefined behavior in the source, so the program does
not guarantee that the run continues to completion on exactly the inputs the
claim ranges over.  For a non-bit-addressed declaration with minor index 12
(`__MW3_12`) the aggregator performs no slot write at all, and there the
warning really is non-fatal. -/
theorem minor_index_oob_slot_write :
    invalidAddrMsg "__IX0_12" ∈ (directPass [⟨"__IX0_12", "BOOL", 0, 12⟩]).1 ∧
    boolGroupsSlotWrites [⟨"__IX0_12", "BOOL", 0, 12⟩] = [(12, "__IX0_12")] ∧
    (List.replicate 8 "").length = 8 ∧ ¬ (12 < 8) ∧
    boolGroupsSlotWrites [⟨"__MW3_12", "INT", 3, 12⟩] = [] := by
  refine ⟨by decide, by decide, by decide, by decide, by decide⟩

theorem isSome_map (o : Option (List String)) (f : List String → List String) :
    (o.map f).isSome = o.isSome := by
  cases o <;> rfl

theorem generateBoolGroupsList_eq_spec_aux (vars : List IecVar) :
    ∀ (st : AggState) (seen : List (Bucket × Nat)),
      (∀ b k, ((b, k) ∈ seen) ↔ (mapFind (st.bucket b) k).isSome = true) →
      (generateBoolGroupsList vars st).1 = specAggregate vars seen := by
  induction vars with
  | nil => intro st seen _; rfl
  | cons v rest ih =>
    intro st seen hinv
    by_cases hX : cAt v.name.toList 3 = 'X'
    · by_cases hf : mapFind (st.bucket (bucketOf (cAt v.name.toList 2))) v.pos1 = none
      · have hnot : specKey v ∉ seen := by
          intro hmem
          have := (hinv (bucketOf (cAt v.name.toList 2)) v.pos1).mp hmem
          rw [hf] at this
          exact absurd this (by simp)
        simp only [generateBoolGroupsList, if_pos hX, if_pos hf, specAggregate,
          if_neg hnot]
        refine congrArg _ ?_
        apply ih
        intro b' k'
        by_cases hb : b' = bucketOf (cAt v.name.toList 2)
        · subst hb
          rw [bucket_setB_self]
          by_cases hk : k' = v.pos1
          · subst hk
            rw [mapFind_mapSetSlot_self, mapFind_mapInsert_self]
            simp [specKey, List.mem_cons]
          · rw [mapFind_mapSetSlot_ne _ _ _ _ _ hk, mapFind_mapInsert_ne _ _ _ _ hk]
            rw [← hinv]
            simp only [List.mem_cons]
            constructor
            · rintro (heq | hmem)
              · exact absurd (congrArg Prod.snd heq) hk
              · exact hmem
            · exact fun hmem => Or.inr hmem
        · rw [bucket_setB_ne _ _ _ _ hb, ← hinv]
          simp only [List.mem_cons]
          constructor
          · rintro (heq | hmem)
            · exact absurd (congrArg Prod.fst heq) hb
            · exact hmem
          · exact fun hmem => Or.inr hmem
      · have hmem : specKey v ∈ seen := by
          apply (hinv (bucketOf (cAt v.name.toList 2)) v.pos1).mpr
          simpa [Option.isSome_iff_ne_none] using hf
        simp only [generateBoolGroupsList, if_pos hX, if_neg hf, specAggregate,
          if_pos hmem]
        apply ih
        intro b' k'
        by_cases hb : b' = bucketOf (cAt v.name.toList 2)
        · subst hb
          rw [bucket_setB_self]
          by_cases hk : k' = v.pos1
          · subst hk
            rw [mapFind_mapSetSlot_self, isSome_map]
            exact hinv _ _
          · rw [mapFind_mapSetSlot_ne _ _ _ _ _ hk]
            exact hinv _ _
        · rw [bucket_setB_ne _ _ _ _ hb]
          exact hinv _ _
    · simp only [generateBoolGroupsList, if_neg hX, specAggregate]
      exact congrArg _ (ih st seen hinv)

/-- Claim C1: the surviving declaration list produced by the in-place
Boolean Group Aggregator equals, for every input list, the list the spec
describes: non-bit-addressed declarations untouched and in order; among
bit-addressed declarations sharing a `(direction, majorIndex)` key exactly the
first-encountered one survives, renamed to the synthetic group identifier
(direction character, `'G'`, decimal major index, under the generator's
uniform two-underscore identifier prefix) with its minor index cleared to 0;
all later members of the key are removed, and the order of first occurrence is
preserved (`specAggregate` keeps the traversal order). -/
theorem boolGroups_matches_spec (vars : List IecVar) :
    (generateBoolGroupsList vars initState).1 = specAggregate vars [] := by
  apply generateBoolGroupsList_eq_spec_aux
  intro b k
  cases b <;> simp [initState, AggState.bucket, mapFind]

theorem mem_survivors_of_nonbit (vars : List IecVar) :
    ∀ st v, v ∈ vars → cAt v.name.toList 3 ≠ 'X' →
      v ∈ (generateBoolGroupsList vars st).1 := by
  induction vars with
  | nil => intro st v hv; simp at hv
  | cons u rest ih =>
    intro st v hv hnb
    rcases List.mem_cons.mp hv with h | h
    · subst h
      simp only [generateBoolGroupsList, if_neg hnb]
      exact List.mem_cons_self _ _
    · by_cases hX : cAt u.name.toList 3 = 'X'
      · by_cases hf : mapFind (st.bucket (bucketOf (cAt u.name.toList 2))) u.pos1 = none
        · simp only [generateBoolGroupsList, if_pos hX, if_pos hf]
          exact List.mem_cons_of_mem _ (ih _ v h hnb)
        · simp only [generateBoolGroupsList, if_pos hX, if_neg hf]
          exact ih _ v h hnb
      · simp only [generateBoolGroupsList, if_neg hX]
        exact List.mem_cons_of_mem _ (ih _ v h hnb)

theorem find_isSome_mono (vars : List IecVar) :
    ∀ st b k, (mapFind (st.bucket b) k).isSome = true →
      (mapFind (((generateBoolGroupsList vars st).2).bucket b) k).isSome = true := by
  induction vars with
  | nil => intro st b k h; exact h
  | cons u rest ih =>
    intro st b k h
    by_cases hX : cAt u.name.toList 3 = 'X'
    · by_cases hf : mapFind (st.bucket (bucketOf (cAt u.name.toList 2))) u.pos1 = none
      · simp only [generateBoolGroupsList, if_pos hX, if_pos hf]
        apply ih
        by_cases hb : b = bucketOf (cAt u.name.toList 2)
        · subst hb
          rw [bucket_setB_self]
          by_cases hk : k = u.pos1
          · subst hk
            rw [mapFind_mapSetSlot_self, mapFind_mapInsert_self]
            rfl
          · rw [mapFind_mapSetSlot_ne _ _ _ _ _ hk, mapFind_mapInsert_ne _ _ _ _ hk]
            exact h
        · rw [bucket_setB_ne _ _ _ _ hb]
          exact h
      · simp only [generateBoolGroupsList, if_pos hX, if_neg hf]
        apply ih
        by_cases hb : b = bucketOf (cAt u.name.toList 2)
        · subst hb
          rw [bucket_setB_self]
          by_cases hk : k = u.pos1
          · subst hk
            rw [mapFind_mapSetSlot_self, isSome_map]
            exact h
          · rw [mapFind_mapSetSlot_ne _ _ _ _ _ hk]
            exact h
        · rw [bucket_setB_ne _ _ _ _ hb]
          exact h
    · simp only [generateBoolGroupsList, if_neg hX]
      exact ih st b k h

theorem bit_key_present (vars : List IecVar) :
    ∀ st v, v ∈ vars → cAt v.name.toList 3 = 'X' →
      (mapFind (((generateBoolGroupsList vars st).2).bucket
        (bucketOf (cAt v.name.toList 2))) v.pos1).isSome = true := by
  induction vars with
  | nil => intro st v hv; simp at hv
  | cons u rest ih =>
    intro st v hv hb
    rcases List.mem_cons.mp hv with h | h
    · subst h
      by_cases hf : mapFind (st.bucket (bucketOf (cAt v.name.toList 2))) v.pos1 = none
      · simp only [generateBoolGroupsList, if_pos hb, if_pos hf]
        apply find_isSome_mono
        rw [bucket_setB_self, mapFind_mapSetSlot_self, mapFind_mapInsert_self]
        rfl
      · simp only [generateBoolGroupsList, if_pos hb, if_neg hf]
        apply find_isSome_mono
        rw [bucket_setB_self, mapFind_mapSetSlot_self, isSome_map]
        simpa [Option.isSome_iff_ne_none] using hf
    · by_cases hX : cAt u.name.toList 3 = 'X'
      · by_cases hf : mapFind (st.bucket (bucketOf (cAt u.name.toList 2))) u.pos1 = none
        · simp only [generateBoolGroupsList, if_pos hX, if_pos hf]
          exact ih _ v h hb
        · simp only [generateBoolGroupsList, if_pos hX, if_neg hf]
          exact ih _ v h hb
      · simp only [generateBoolGroupsList, if_neg hX]
        exact ih _ v h hb

/-- Claim C9: a declaration whose direction/size flag combination has no case
in the direct-assignment dispatch (double-word or long-word inputs and
outputs, bit or byte memory) produces no statement there and no diagnostic
(its minor index being in range), yet still yields a row in the unified
lookup table: directly for the non-bit combinations, which survive the
aggregator untouched, and through its boolean group, which the aggregator
still creates, for bit memory. -/
theorem unmapped_combo_still_in_table (vars : List IecVar) (v : IecVar)
    (hv : v ∈ vars) (h8 : v.pos2 < 8)
    (hc : (cAt v.name.toList 2, cAt v.name.toList 3) ∈
      [('I', 'D'), ('I', 'L'), ('Q', 'D'), ('Q', 'L'), ('M', 'X'), ('M', 'B')]) :
    glueVarStmts v.name v.pos1 v.pos2 = [] ∧
    glueVarWarnings v.name v.pos2 = [] ∧
    (cAt v.name.toList 3 ≠ 'X' →
      rowOf v ∈ (generateIntegratedGlue (generateBoolGroupsList vars initState).1).2) ∧
    (cAt v.name.toList 3 = 'X' →
      (mapFind ((generateBoolGroupsList vars initState).2.memory) v.pos1).isSome
        = true) := by
  have hw : glueVarWarnings v.name v.pos2 = [] := by
    simp [glueVarWarnings]
    omega
  simp only [List.mem_cons, List.not_mem_nil, or_false, Prod.mk.injEq] at hc
  refine ⟨?_, hw, ?_, ?_⟩
  · rcases hc with ⟨h2, h3⟩ | ⟨h2, h3⟩ | ⟨h2, h3⟩ | ⟨h2, h3⟩ | ⟨h2, h3⟩ | ⟨h2, h3⟩ <;>
      · have h2' : cAt v.name.data 2 = _ := h2
        have h3' : cAt v.name.data 3 = _ := h3
        simp [glueVarStmts, h2', h3']
  · intro hnb
    have hs : v ∈ (generateBoolGroupsList vars initState).1 :=
      mem_survivors_of_nonbit vars initState v hv hnb
    simpa [generateIntegratedGlue] using List.mem_map_of_mem rowOf hs
  · intro hb
    have h2 : cAt v.name.toList 2 = 'M' := by
      rcases hc with ⟨h2, h3⟩ | ⟨h2, h3⟩ | ⟨h2, h3⟩ | ⟨h2, h3⟩ | ⟨h2, h3⟩ | ⟨h2, h3⟩ <;>
        first
          | exact h2
          | (exfalso; rw [h3] at hb; exact absurd hb (by decide))
    have := bit_key_present vars initState v hv hb
    rw [h2] at this
    simpa [bucketOf, AggState.bucket] using this

/-- Witness for `unmapped_combo_still_in_table` at the single declaration
`%ID5` (a double-word input, which has no direct-assignment case). -/
theorem unmapped_combo_still_in_table_witness :
    glueVarStmts "__ID5" 5 0 = [] ∧
    glueVarWarnings "__ID5" 0 = [] ∧
    (cAt "__ID5".toList 3 ≠ 'X' →
      rowOf ⟨"__ID5", "DINT", 5, 0⟩ ∈
        (generateIntegratedGlue
          (generateBoolGroupsList [⟨"__ID5", "DINT", 5, 0⟩] initState).1).2) ∧
    (cAt "__ID5".toList 3 = 'X' →
      (mapFind ((generateBoolGroupsList [⟨"__ID5", "DINT", 5, 0⟩] initState).2.memory)
        5).isSome = true) :=
  unmapped_combo_still_in_table [⟨"__ID5", "DINT", 5, 0⟩] ⟨"__ID5", "DINT", 5, 0⟩
    (by simp) (by decide) (by decide)

theorem mapInsert_head_lt (x k : Nat) (v : List String) (m : GroupMap)
    (hx : x < k) (hm : ∀ p ∈ m.head?, x < p.1) :
    ∀ p ∈ (mapInsert k v m).head?, x < p.1 := by
  cases m with
  | nil =>
    intro p hp
    simp only [mapInsert, List.head?, Option.mem_def, Option.some.injEq] at hp
    rw [← hp]
    exact hx
  | cons a rest =>
    intro p hp
    by_cases h1 : k < a.1
    · simp only [mapInsert, if_pos h1, List.head?, Option.mem_def,
        Option.some.injEq] at hp
      rw [← hp]; exact hx
    · by_cases h2 : k = a.1
      · simp only [mapInsert, if_neg h1, if_pos h2, List.head?, Option.mem_def,
          Option.some.injEq] at hp
        rw [← hp]; exact hx
      · simp only [mapInsert, if_neg h1, if_neg h2, List.head?, Option.mem_def,
          Option.some.injEq] at hp
        rw [← hp]
        exact hm a rfl

theorem mapSorted_mapInsert (k : Nat) (v : List String) (m : GroupMap)
    (h : mapSorted m) : mapSorted (mapInsert k v m) := by
  induction m with
  | nil => simp [mapInsert, mapSorted]
  | cons a rest ih =>
    rw [mapSorted, List.chain'_cons'] at h
    obtain ⟨hhead, htail⟩ := h
    by_cases h1 : k < a.1
    · rw [mapSorted]
      simp only [mapInsert, if_pos h1]
      rw [List.chain'_cons']
      refine ⟨?_, List.chain'_cons'.mpr ⟨hhead, htail⟩⟩
      intro y hy
      simp only [List.head?, Option.mem_def, Option.some.injEq] at hy
      rw [← hy]
      exact h1
    · by_cases h2 : k = a.1
      · rw [mapSorted]
        simp only [mapInsert, if_neg h1, if_pos h2]
        rw [List.chain'_cons']
        refine ⟨?_, htail⟩
        intro y hy
        rw [h2]
        exact hhead y hy
      · rw [mapSorted]
        simp only [mapInsert, if_neg h1, if_neg h2]
        rw [List.chain'_cons']
        refine ⟨?_, ih htail⟩
        have halt : a.1 < k := by omega
        exact mapInsert_head_lt a.1 k v rest halt hhead

theorem mapSorted_mapSetSlot (k i : Nat) (n : String) (m : GroupMap)
    (h : mapSorted m) : mapSorted (mapSetSlot k i n m) := by
  rw [mapSorted] at h ⊢
  have h' : List.Chain' (· < ·) (m.map Prod.fst) := (List.chain'_map Prod.fst).mpr h
  rw [← mapSetSlot_keys k i n m] at h'
  exact (List.chain'_map Prod.fst).mp h'

theorem sortedSt_bucket (st : AggState) (b : Bucket) (h : sortedSt st) :
    mapSorted (st.bucket b) := by
  obtain ⟨h1, h2, h3⟩ := h
  cases b <;> assumption

theorem sortedSt_setB (st : AggState) (b : Bucket) (m : GroupMap)
    (h : sortedSt st) (hm : mapSorted m) : sortedSt (st.setB b m) := by
  obtain ⟨h1, h2, h3⟩ := h
  cases b
  · exact ⟨hm, h2, h3⟩
  · exact ⟨h1, hm, h3⟩
  · exact ⟨h1, h2, hm⟩

theorem agg_sorted (vars : List IecVar) :
    ∀ st, sortedSt st → sortedSt (generateBoolGroupsList vars st).2 := by
  induction vars with
  | nil => intro st h; exact h
  | cons u rest ih =>
    intro st h
    by_cases hX : cAt u.name.toList 3 = 'X'
    · by_cases hf : mapFind (st.bucket (bucketOf (cAt u.name.toList 2))) u.pos1 = none
      · simp only [generateBoolGroupsList, if_pos hX, if_pos hf]
        exact ih _ (sortedSt_setB _ _ _ h
          (mapSorted_mapSetSlot _ _ _ _
            (mapSorted_mapInsert _ _ _ (sortedSt_bucket st _ h))))
      · simp only [generateBoolGroupsList, if_pos hX, if_neg hf]
        exact ih _ (sortedSt_setB _ _ _ h
          (mapSorted_mapSetSlot _ _ _ _ (sortedSt_bucket st _ h)))
    · simp only [generateBoolGroupsList, if_neg hX]
      exact ih st h

theorem mem_emitGroups_direction (d : Char) (m : GroupMap) (g : BoolGroupConst)
    (h : g ∈ emitGroups d m) : g.direction = d := by
  simp only [emitGroups, List.mem_map] at h
  obtain ⟨p, _, heq⟩ := h
  rw [← heq]

theorem chain'_emitGroups (d : Char) (m : GroupMap) (h : mapSorted m) :
    List.Chain' emitLt (emitGroups d m) := by
  rw [emitGroups, List.chain'_map]
  apply List.Chain'.imp ?_ h
  intro a b hab
  right
  exact ⟨rfl, hab⟩

/-- Claim C10: for every input list, the emitted boolean group constants
appear grouped by direction in the fixed order IN (`'I'`), OUT (`'Q'`),
MEM (`'M'`), and within each direction in ascending major-index order — the
three `std::map`s iterate in ascending key order and are emitted in the fixed
direction order, regardless of the order of the input declarations. -/
theorem groupConsts_ordered (vars : List IecVar) :
    List.Chain' emitLt
      (allGroupConsts (generateBoolGroupsList vars initState).2) := by
  have hs : sortedSt (generateBoolGroupsList vars initState).2 :=
    agg_sorted vars initState ⟨List.chain'_nil, List.chain'_nil, List.chain'_nil⟩
  obtain ⟨h1, h2, h3⟩ := hs
  rw [allGroupConsts, List.chain'_append]
  refine ⟨?_, chain'_emitGroups _ _ h3, ?_⟩
  · rw [List.chain'_append]
    refine ⟨chain'_emitGroups _ _ h1, chain'_emitGroups _ _ h2, ?_⟩
    intro x hx y hy
    have hdx : x.direction = 'I' :=
      mem_emitGroups_direction _ _ _ (List.mem_of_mem_getLast? hx)
    have hdy : y.direction = 'Q' :=
      mem_emitGroups_direction _ _ _ (List.mem_of_mem_head? hy)
    left
    rw [hdx, hdy]
    decide
  · intro x hx y hy
    have hx' := List.mem_of_mem_getLast? hx
    have hdy : y.direction = 'M' :=
      mem_emitGroups_direction _ _ _ (List.mem_of_mem_head? hy)
    left
    rcases List.mem_append.mp hx' with h | h
    · have hdx : x.direction = 'I' := mem_emitGroups_direction _ _ _ h
      rw [hdx, hdy]
      decide
    · have hdx : x.direction = 'Q' := mem_emitGroups_direction _ _ _ h
      rw [hdx, hdy]
      decide

theorem getD_set_self (l : List String) (j : Nat) (s : String) (h : j < l.length) :
    (l.set j s).getD j "" = s := by
  simp [List.getD, List.getElem?_set_self', List.getElem?_eq_getElem h]

theorem getD_set_ne (l : List String) (i j : Nat) (s : String) (h : i ≠ j) :
    (l.set i s).getD j "" = l.getD j "" := by
  simp [List.getD, List.getElem?_set_ne h]

theorem getD_replicate_empty (j : Nat) : (List.replicate 8 "").getD j "" = "" := by
  rcases Nat.lt_or_ge j 8 with h | h
  · rw [List.getD_eq_getElem _ _ (by simpa using h), List.getElem_replicate]
  · rw [List.getD_eq_default _ _ (by simpa using h)]

theorem groupSlot_agg_foldl (vars : List IecVar) :
    ∀ (st : AggState) (b : Bucket) (k j : Nat), j < 8 →
      (∀ s, mapFind (st.bucket b) k = some s → s.length = 8) →
      groupSlot (generateBoolGroupsList vars st).2 b k j =
        (bitMatches vars b k).foldl
          (fun acc v => some (if v.pos2 = j then v.name else acc.getD ""))
          (groupSlot st b k j) := by
  induction vars with
  | nil =>
    intro st b k j _ _
    simp [bitMatches, generateBoolGroupsList]
  | cons v rest ih =>
    intro st b k j hj hlen
    by_cases hX : cAt v.name.toList 3 = 'X'
    · by_cases hkey : bucketOf (cAt v.name.toList 2) = b ∧ v.pos1 = k
      · obtain ⟨hb, hk⟩ := hkey
        subst hb
        subst hk
        have hmcons : bitMatches (v :: rest) (bucketOf (cAt v.name.toList 2)) v.pos1
            = v :: bitMatches rest (bucketOf (cAt v.name.toList 2)) v.pos1 := by
          simp only [bitMatches, List.filter_cons]
          rw [if_pos (by simp only [decide_eq_true_eq, and_true]; exact hX)]
        rw [hmcons, List.foldl_cons]
        by_cases hf : mapFind (st.bucket (bucketOf (cAt v.name.toList 2))) v.pos1 = none
        · simp only [generateBoolGroupsList, if_pos hX, if_pos hf]
          rw [ih _ _ _ j hj ?hlenA]
          case hlenA =>
            intro s hs
            rw [bucket_setB_self, mapFind_mapSetSlot_self, mapFind_mapInsert_self] at hs
            simp only [Option.map_some', Option.some.injEq] at hs
            rw [← hs]
            simp
          congr 1
          have hfind' : mapFind ((st.setB (bucketOf (cAt v.name.toList 2))
              (mapSetSlot v.pos1 v.pos2 v.name
                (mapInsert v.pos1 (List.replicate 8 "")
                  (st.bucket (bucketOf (cAt v.name.toList 2)))))).bucket
                (bucketOf (cAt v.name.toList 2))) v.pos1
              = some ((List.replicate 8 "").set v.pos2 v.name) := by
            rw [bucket_setB_self, mapFind_mapSetSlot_self, mapFind_mapInsert_self]
            rfl
          simp only [groupSlot, hfind', hf, Option.map_some', Option.map_none',
            Option.getD_none]
          by_cases hp2 : v.pos2 = j
          · subst hp2
            rw [if_pos rfl, getD_set_self _ _ _ (by simp; omega)]
          · rw [if_neg hp2, getD_set_ne _ _ _ _ hp2, getD_replicate_empty]
        · obtain ⟨s, hs⟩ := Option.ne_none_iff_exists'.mp hf
          have hslen : s.length = 8 := hlen s hs
          simp only [generateBoolGroupsList, if_pos hX, if_neg hf]
          rw [ih _ _ _ j hj ?hlenB]
          case hlenB =>
            intro s2 hs2
            rw [bucket_setB_self, mapFind_mapSetSlot_self, hs] at hs2
            simp only [Option.map_some', Option.some.injEq] at hs2
            rw [← hs2]
            simpa using hslen
          congr 1
          have hfind' : mapFind ((st.setB (bucketOf (cAt v.name.toList 2))
              (mapSetSlot v.pos1 v.pos2 v.name
                (st.bucket (bucketOf (cAt v.name.toList 2))))).bucket
                (bucketOf (cAt v.name.toList 2))) v.pos1
              = some (s.set v.pos2 v.name) := by
            rw [bucket_setB_self, mapFind_mapSetSlot_self, hs]
            rfl
          simp only [groupSlot, hfind', hs, Option.map_some', Option.getD_some]
          by_cases hp2 : v.pos2 = j
          · subst hp2
            rw [if_pos rfl, getD_set_self _ _ _ (by omega)]
          · rw [if_neg hp2, getD_set_ne _ _ _ _ hp2]
      · have hnp : ¬ (cAt v.name.toList 3 = 'X' ∧
            bucketOf (cAt v.name.toList 2) = b ∧ v.pos1 = k) := by
          intro hcon
          exact hkey ⟨hcon.2.1, hcon.2.2⟩
        have hmskip : bitMatches (v :: rest) b k = bitMatches rest b k := by
          simp only [bitMatches, List.filter_cons]
          rw [if_neg (by simp only [decide_eq_true_eq]; exact hnp)]
        rw [hmskip]
        by_cases hf : mapFind (st.bucket (bucketOf (cAt v.name.toList 2))) v.pos1 = none
        · simp only [generateBoolGroupsList, if_pos hX, if_pos hf]
          have hpres : mapFind ((st.setB (bucketOf (cAt v.name.toList 2))
              (mapSetSlot v.pos1 v.pos2 v.name
                (mapInsert v.pos1 (List.replicate 8 "")
                  (st.bucket (bucketOf (cAt v.name.toList 2)))))).bucket b) k
              = mapFind (st.bucket b) k := by
            by_cases hbb : b = bucketOf (cAt v.name.toList 2)
            · subst hbb
              rw [bucket_setB_self]
              have hkk : k ≠ v.pos1 := fun he => hkey ⟨rfl, he.symm⟩
              rw [mapFind_mapSetSlot_ne _ _ _ _ _ hkk, mapFind_mapInsert_ne _ _ _ _ hkk]
            · rw [bucket_setB_ne _ _ _ _ hbb]
          have hgs : groupSlot (st.setB (bucketOf (cAt v.name.toList 2))
              (mapSetSlot v.pos1 v.pos2 v.name
                (mapInsert v.pos1 (List.replicate 8 "")
                  (st.bucket (bucketOf (cAt v.name.toList 2)))))) b k j
              = groupSlot st b k j := by
            simp only [groupSlot, hpres]
          rw [ih _ _ _ j hj (by intro s hs; rw [hpres] at hs; exact hlen s hs), hgs]
        · simp only [generateBoolGroupsList, if_pos hX, if_neg hf]
          have hpres : mapFind ((st.setB (bucketOf (cAt v.name.toList 2))
              (mapSetSlot v.pos1 v.pos2 v.name
                (st.bucket (bucketOf (cAt v.name.toList 2))))).bucket b) k
              = mapFind (st.bucket b) k := by
            by_cases hbb : b = bucketOf (cAt v.name.toList 2)
            · subst hbb
              rw [bucket_setB_self]
              have hkk : k ≠ v.pos1 := fun he => hkey ⟨rfl, he.symm⟩
              rw [mapFind_mapSetSlot_ne _ _ _ _ _ hkk]
            · rw [bucket_setB_ne _ _ _ _ hbb]
          have hgs : groupSlot (st.setB (bucketOf (cAt v.name.toList 2))
              (mapSetSlot v.pos1 v.pos2 v.name
                (st.bucket (bucketOf (cAt v.name.toList 2))))) b k j
              = groupSlot st b k j := by
            simp only [groupSlot, hpres]
          rw [ih _ _ _ j hj (by intro s hs; rw [hpres] at hs; exact hlen s hs), hgs]
    · have hnp : ¬ (cAt v.name.toList 3 = 'X' ∧
          bucketOf (cAt v.name.toList 2) = b ∧ v.pos1 = k) := by
        intro hcon
        exact hX hcon.1
      have hmskip : bitMatches (v :: rest) b k = bitMatches rest b k := by
        simp only [bitMatches, List.filter_cons]
        rw [if_neg (by simp only [decide_eq_true_eq]; exact hnp)]
      rw [hmskip]
      simp only [generateBoolGroupsList, if_neg hX]
      exact ih st b k j hj hlen

/-- Claim C8: the content of slot `j` of the group keyed `(direction,
majorIndex)` is the left fold, over the bit-addressed declarations of that
key in list order, that replaces the accumulated slot value with each
successive declaration whose minor index is `j` — i.e. when two bit-addressed
declarations claim the same `(direction, majorIndex, minorIndex)` triple the
later one silently overwrites the earlier one's entry (the aggregator emits no
conflict diagnostic — its output consists solely of the group constants and
the surviving list), so only the last-written name appears in the emitted
group constant. -/
theorem slot_last_write_wins (vars : List IecVar) (b : Bucket) (k j : Nat)
    (hj : j < 8) :
    groupSlot (generateBoolGroupsList vars initState).2 b k j =
      (bitMatches vars b k).foldl
        (fun acc v => some (if v.pos2 = j then v.name else acc.getD "")) none := by
  have h0 : ∀ s, mapFind (initState.bucket b) k = some s → s.length = 8 := by
    intro s hs
    cases b <;> simp [initState, AggState.bucket, mapFind] at hs
  have h := groupSlot_agg_foldl vars initState b k j hj h0
  have h0' : groupSlot initState b k j = none := by cases b <;> rfl
  rw [h0'] at h
  exact h

/-- Witness for `slot_last_write_wins`: the declarations `__IX1_2` and
`__IX01_02` both decode to the triple `(IN, 1, 2)`; the later one's name ends
up in the slot and the earlier one's name appears in no emitted group
constant. -/
theorem slot_last_write_wins_witness :
    groupSlot (generateBoolGroupsList
        [⟨"__IX1_2", "BOOL", 1, 2⟩, ⟨"__IX01_02", "BOOL", 1, 2⟩] initState).2
        Bucket.IN 1 2
      = some "__IX01_02" ∧
    ∀ g ∈ allGroupConsts (generateBoolGroupsList
        [⟨"__IX1_2", "BOOL", 1, 2⟩, ⟨"__IX01_02", "BOOL", 1, 2⟩] initState).2,
      "__IX1_2" ∉ g.slots := by
  constructor
  · have h := slot_last_write_wins
      [⟨"__IX1_2", "BOOL", 1, 2⟩, ⟨"__IX01_02", "BOOL", 1, 2⟩]
      Bucket.IN 1 2 (by decide)
    rw [h]
    decide
  · decide

end GlueGenerator
